import Mathlib

/-!
Verification of the fragment-rendering core of the `sqrl` SQL builder
(package `sqrl`, file `expr.go` plus the `jsonOp` encoder).

A Go `interface{}` argument value is modelled by `GoVal`; a fragment tree by
`Frag`; the `ToSql` methods by `toSql` and its helpers.  Rendering returns
`Except String (String × List GoVal)`: Go returns a `(sql, args, err)` triple,
but on `err ≠ nil` the spec declares `sql`/`args` undefined and unusable, so
the model keeps only the error message there.
-/

namespace Sqrl

/-- A Go dynamic value as seen by the rendering code.
`prim` is any value that is a valid `driver.Value` or other non-sequence
scalar (note Go `[]byte` IS a valid driver value, so it is a `prim`, not an
`arr` — `isListType` in expr.go:310-316 first checks `driver.IsValue`).
`arr` is a Go array/slice that is not a driver value.
`valuer` is a `driver.Valuer`, carrying the outcome of its `Value()` call. -/
inductive GoVal where
  | null
  | prim (payload : String)
  | arr (elems : List GoVal)
  | valuer (res : Except String GoVal)

/-- Number of generic placeholder marks in a character list. -/
def countQL : List Char → Nat
  | [] => 0
  | c :: r => (if c = '?' then 1 else 0) + countQL r

/-- Number of generic placeholder marks in rendered SQL text. -/
def countQ (s : String) : Nat := countQL s.data

/-- Model of Go `strings.Join`. -/
def joinSep (sep : String) : List String → String
  | [] => ""
  | [s] => s
  | s :: s2 :: rest => s ++ sep ++ joinSep sep (s2 :: rest)

/-- Modelled from the spec: the `Placeholders` helper is not among the
provided sources (only its caller `Eq.toSql` is); spec §4.3 shows the IN
clause as `"<key> IN (?,...,?)"` with N comma-separated marks. -/
def Placeholders : Nat → String
  | 0 => ""
  | 1 => "?"
  | Nat.succ (Nat.succ n) => "?," ++ Placeholders (Nat.succ n)

/-- The single `driver.Valuer` unwrapping step performed by the type switch
at the top of each predicate loop (expr.go:143-148, 214-219). -/
def unwrapValuer : GoVal → Except String GoVal
  | .valuer res => res
  | v => .ok v

/-- expr.go:310-316 — true exactly for a non-driver-value array/slice. -/
def isListType : GoVal → Bool
  | .arr _ => true
  | _ => false

def isValuerV : GoVal → Bool
  | .valuer _ => true
  | _ => false

/-- A value that survives the null/list checks of the ordering builders. -/
def isScalarV : GoVal → Bool
  | .prim _ => true
  | _ => false

/-- Flag/width/precision characters Go `fmt` skips between `%` and the verb. -/
def isFlagChar (c : Char) : Bool := "+-# 0123456789.".data.contains c

mutual

/-- Model of Go `fmt.Sprintf(format)` applied with NO operand arguments, as
in the call `fmt.Fprintf(buf, sql)` at expr.go:43.  Faithful for formats
without `*`-widths or argument indexes: `%%` prints `%`; a `%` with no verb
prints `%!(NOVERB)`; a verb with no operand prints `%!<verb>(MISSING)`
(flags, width and precision are consumed and dropped). -/
def fmtNoArgs : List Char → List Char
  | [] => []
  | c :: rest => if c = '%' then fmtVerb rest else c :: fmtNoArgs rest

/-- Scanner state after a `%`: skip flag characters, find the verb. -/
def fmtVerb : List Char → List Char
  | [] => "%!(NOVERB)".data
  | c :: rest =>
    if c = '%' then '%' :: fmtNoArgs rest
    else if isFlagChar c then fmtVerb rest
    else "%!".data ++ [c] ++ "(MISSING)".data ++ fmtNoArgs rest

end

def fmtNoArgsStr (s : String) : String := ⟨fmtNoArgs s.data⟩

/-- Outcome of pre-rendering one supplied argument of an `expr`:
either a plain scalar or the (pure, hence order-independent) render result
of a nested `Sqlizer`. -/
inductive StepRes where
  | scalar (v : GoVal)
  | rendered (r : Except String (String × List GoVal))

/-- The callback body of `expr.ToSql` (expr.go:31-49): for mark position `i`
(1-indexed), out-of-range positions keep the mark; a `Sqlizer` argument has
its rendered text passed through `fmt.Fprintf` (as a format string!) and its
rendered arguments appended; a scalar keeps the mark and appends itself. -/
def exprStep (rs : List StepRes) (i : Nat) : Except String (String × List GoVal) :=
  match rs[i - 1]? with
  | none => .ok ("?", [])
  | some (.scalar v) => .ok ("?", [v])
  | some (.rendered (.error e)) => .error e
  | some (.rendered (.ok (s, a))) => .ok (fmtNoArgsStr s, a)

/-- Modelled from the spec: `replacePlaceholders` is not among the provided
sources (only its caller `expr.ToSql` is).  Spec §4.5: scan the template
left to right; each placeholder mark gets the next 1-indexed logical
position and is replaced by whatever the per-mark handler produces,
stopping at the first handler error; other characters pass through. -/
def replaceLoop (step : Nat → Except String (String × List GoVal)) :
    List Char → Nat → Except String (String × List GoVal)
  | [], _ => .ok ("", [])
  | c :: rest, i =>
    if c = '?' then
      match step (i + 1) with
      | .error e => .error e
      | .ok (t, a) =>
        match replaceLoop step rest (i + 1) with
        | .error e => .error e
        | .ok (t2, a2) => .ok (t ++ t2, a ++ a2)
    else
      match replaceLoop step rest i with
      | .error e => .error e
      | .ok (t2, a2) => .ok (String.singleton c ++ t2, a2)

/-- The general (placeholder-expansion) path of `expr.ToSql`, given the
pre-rendered argument results. -/
def exprGeneral (sql : String) (rs : List StepRes) :
    Except String (String × List GoVal) :=
  replaceLoop (exprStep rs) sql.data 0

/-- The loop body of `Eq.toSql` (expr.go:140-172), folded over the entries in
the enumeration order the Go runtime presents for the map.  The operator
strings are fixed by `useNotOpr` before the loop (expr.go:125-138).
`isListType` appears here as the `.arr` pattern; the empty-list branch also
forces `args` non-nil in Go, a distinction `List` does not have. -/
def eqLoop (equalOpr inOpr nullOpr inEmptyExpr : String) :
    List (String × GoVal) → Except String (List String × List GoVal)
  | [] => .ok ([], [])
  | (key, val0) :: rest =>
    match unwrapValuer val0 with
    | .error e => .error e
    | .ok val =>
      let clause : String × List GoVal :=
        match val with
        | .null => (key ++ " " ++ nullOpr ++ " NULL", [])
        | .arr [] => (inEmptyExpr, [])
        | .arr vs => (key ++ " " ++ inOpr ++ " (" ++ Placeholders vs.length ++ ")", vs)
        | v => (key ++ " " ++ equalOpr ++ " ?", [v])
      match eqLoop equalOpr inOpr nullOpr inEmptyExpr rest with
      | .error e => .error e
      | .ok (es, as) => .ok (clause.1 :: es, clause.2 ++ as)

/-- `Eq.toSql` / `NotEq.ToSql` (expr.go:124-190). -/
def eqToSql (entries : List (String × GoVal)) (useNotOpr : Bool) :
    Except String (String × List GoVal) :=
  let equalOpr := if useNotOpr then "<>" else "="
  let inOpr := if useNotOpr then "NOT IN" else "IN"
  let nullOpr := if useNotOpr then "IS NOT" else "IS"
  let inEmptyExpr := if useNotOpr then "(1=1)" else "(1=0)"
  match eqLoop equalOpr inOpr nullOpr inEmptyExpr entries with
  | .error e => .error e
  | .ok (es, as) => .ok (joinSep " AND " es, as)

/-- The loop body of `Lt.toSql` (expr.go:211-234). -/
def ltLoop (opr : String) :
    List (String × GoVal) → Except String (List String × List GoVal)
  | [] => .ok ([], [])
  | (key, val0) :: rest =>
    match unwrapValuer val0 with
    | .error e => .error e
    | .ok val =>
      match val with
      | .null => .error "cannot use null with less than or greater than operators"
      | .arr _ => .error "cannot use array or slice with less than or greater than operators"
      | v =>
        match ltLoop opr rest with
        | .error e => .error e
        | .ok (es, as) => .ok ((key ++ " " ++ opr ++ " ?") :: es, v :: as)

/-- `Lt.toSql` (expr.go:197-237); `opposite`/`orEq` select the four exported
variants Lt / LtOrEq / Gt / GtOrEq (expr.go:239-268). -/
def ltToSql (entries : List (String × GoVal)) (opposite orEq : Bool) :
    Except String (String × List GoVal) :=
  let opr := (if opposite then ">" else "<") ++ (if orEq then "=" else "")
  match ltLoop opr entries with
  | .error e => .error e
  | .ok (es, as) => .ok (joinSep " AND " es, as)

/-- A fragment tree of the core under verification.  Constructor map:
`expr` = `Expr(sql, args...)` with each argument a scalar (`Sum.inl`) or a
nested `Sqlizer` (`Sum.inr`); `eq` = `Eq`/`NotEq` as the entry list in the
runtime-chosen enumeration order; `lt` = the Lt family likewise;
`and`/`or` = the `And`/`Or` conjunctions; `concat` = `ConcatExpr`, a part
being a string (`Sum.inl`), a `Sqlizer` (`Sum.inr (some f)`), or any other
value (`Sum.inr none`); `fn` = `Fn(name, args...)`; `json` = `JSON`/`JSONB`
(only those two constructors build the unexported `jsonOp`), carrying the
result of the external `json.Marshal` call on its value. -/
inductive Frag where
  | expr (sql : String) (args : List (Sum GoVal Frag))
  | eq (entries : List (String × GoVal)) (useNotOpr : Bool)
  | lt (entries : List (String × GoVal)) (opposite orEq : Bool)
  | and (cs : List Frag)
  | or (cs : List Frag)
  | concat (parts : List (Sum String (Option Frag)))
  | fn (name : String) (fargs : List Frag)
  | json (jsonb : Bool) (marshal : Except String String)

/-- expr.go:318-326 — whether any supplied argument is a `Sqlizer`. -/
def hasSqlizer : List (Sum GoVal Frag) → Bool
  | [] => false
  | .inl _ :: rest => hasSqlizer rest
  | .inr _ :: _ => true

/-- The argument list the fast path of `expr.ToSql` returns unchanged; only
consulted when `hasSqlizer` is false, so every argument is a scalar. -/
def argVals : List (Sum GoVal Frag) → List GoVal
  | [] => []
  | .inl v :: rest => v :: argVals rest
  | .inr _ :: rest => argVals rest

mutual

/-- The `ToSql` methods of the core fragments (expr.go, json encoder).
Rendering is pure, so for `expr` the nested arguments may be pre-rendered
(`renderArgs`) and their results consulted lazily at their marks: this is
observationally identical to rendering each nested fragment when its mark
is reached, as the Go code does. -/
def toSql : Frag → Except String (String × List GoVal)
  | .expr sql args =>
    if hasSqlizer args then exprGeneral sql (renderArgs args)
    else .ok (sql, argVals args)
  | .eq entries useNotOpr => eqToSql entries useNotOpr
  | .lt entries opposite orEq => ltToSql entries opposite orEq
  | .and cs =>
    match conjParts cs with
    | .error e => .error e
    | .ok (ss, as) =>
      .ok (if ss.isEmpty then "" else "(" ++ joinSep " AND " ss ++ ")", as)
  | .or cs =>
    match conjParts cs with
    | .error e => .error e
    | .ok (ss, as) =>
      .ok (if ss.isEmpty then "" else "(" ++ joinSep " OR " ss ++ ")", as)
  | .concat parts => concatParts parts
  | .fn name fargs =>
    match fnLoop fargs with
    | .error e => .error e
    | .ok (ss, as) => .ok (name ++ "(" ++ joinSep ", " ss ++ ")", as)
  | .json jsonb marshal =>
    let tpe := if jsonb then "jsonb" else "json"
    match marshal with
    | .error e => .error ("Failed to serialize " ++ tpe ++ " value: " ++ e)
    | .ok v => .ok ("?::" ++ tpe, [GoVal.prim v])

/-- Pre-render the supplied arguments of an `expr` (see `toSql`). -/
def renderArgs : List (Sum GoVal Frag) → List StepRes
  | [] => []
  | .inl v :: rest => .scalar v :: renderArgs rest
  | .inr f :: rest => .rendered (toSql f) :: renderArgs rest

/-- `conj.join`’s accumulation loop (expr.go:272-283): first child error
wins; a child rendering to empty text is skipped, its arguments dropped. -/
def conjParts : List Frag → Except String (List String × List GoVal)
  | [] => .ok ([], [])
  | f :: rest =>
    match toSql f with
    | .error e => .error e
    | .ok (s, a) =>
      match conjParts rest with
      | .error e => .error e
      | .ok (ss, as) => if s = "" then .ok (ss, as) else .ok (s :: ss, a ++ as)

/-- `concatExpr.ToSql` (expr.go:343-360). -/
def concatParts : List (Sum String (Option Frag)) → Except String (String × List GoVal)
  | [] => .ok ("", [])
  | .inl s :: rest =>
    match concatParts rest with
    | .error e => .error e
    | .ok (t, a) => .ok (s ++ t, a)
  | .inr none :: _ => .error "is not a string or Sqlizer"
  | .inr (some f) :: rest =>
    match toSql f with
    | .error e => .error e
    | .ok (s, a) =>
      match concatParts rest with
      | .error e => .error e
      | .ok (t, a2) => .ok (s ++ t, a ++ a2)

/-- `fn.ToSql`’s argument loop (expr.go:388-400). -/
def fnLoop : List Frag → Except String (List String × List GoVal)
  | [] => .ok ([], [])
  | f :: rest =>
    match toSql f with
    | .error e => .error e
    | .ok (s, a) =>
      match fnLoop rest with
      | .error e => .error e
      | .ok (ss, as) => .ok (s :: ss, a ++ as)

end

mutual

/-- Well-formed construction for the parity invariant: every raw leaf
template carries exactly one placeholder mark per supplied argument, and no
stray mark hides in a predicate key, a raw concatenation segment, or a
function name. -/
def noStray : Frag → Bool
  | .expr sql args => countQ sql = args.length && noStrayArgs args
  | .eq entries _ => entries.all (fun p => countQ p.1 = 0)
  | .lt entries _ _ => entries.all (fun p => countQ p.1 = 0)
  | .and cs => noStrayList cs
  | .or cs => noStrayList cs
  | .concat parts => noStrayParts parts
  | .fn name fargs => countQ name = 0 && noStrayList fargs
  | .json _ _ => true

def noStrayArgs : List (Sum GoVal Frag) → Bool
  | [] => true
  | .inl _ :: rest => noStrayArgs rest
  | .inr f :: rest => noStray f && noStrayArgs rest

def noStrayList : List Frag → Bool
  | [] => true
  | f :: rest => noStray f && noStrayList rest

def noStrayParts : List (Sum String (Option Frag)) → Bool
  | [] => true
  | .inl s :: rest => countQ s = 0 && noStrayParts rest
  | .inr none :: rest => noStrayParts rest
  | .inr (some f) :: rest => noStray f && noStrayParts rest

end

/-! ### Counting lemmas -/

theorem countQL_append (l1 l2 : List Char) :
    countQL (l1 ++ l2) = countQL l1 + countQL l2 := by
  induction l1 with
  | nil => simp [countQL]
  | cons c r ih => simp [countQL, ih]; omega

theorem countQ_append (s t : String) : countQ (s ++ t) = countQ s + countQ t := by
  have h : (s ++ t).data = s.data ++ t.data := rfl
  simp [countQ, h, countQL_append]

theorem countQ_joinSep (sep : String) (hsep : countQ sep = 0) (ss : List String) :
    countQ (joinSep sep ss) = (ss.map countQ).sum := by
  induction ss with
  | nil => simp [joinSep, countQ, countQL]
  | cons s rest ih =>
    cases rest with
    | nil => simp [joinSep]
    | cons s2 r2 => simp [joinSep, countQ_append, hsep] at *; omega

theorem countQ_Placeholders (n : Nat) : countQ (Placeholders n) = n := by
  induction n with
  | zero => rfl
  | succ m ih =>
    cases m with
    | zero => rfl
    | succ k =>
      rw [Placeholders, countQ_append, ih]
      have h1 : countQ "?," = 1 := rfl
      rw [h1]
      omega

theorem isFlagChar_ne_mark (c : Char) (h : isFlagChar c = true) : c ≠ '?' := by
  intro hc; subst hc; simp [isFlagChar] at h

/-- Go’s argument-free formatting pass never adds or removes placeholder
marks: flags it drops are never `?` and its error texts contain none. -/
theorem countQL_fmt (l : List Char) :
    countQL (fmtNoArgs l) = countQL l ∧ countQL (fmtVerb l) = countQL l := by
  induction l with
  | nil => exact ⟨rfl, rfl⟩
  | cons c rest ih =>
    refine ⟨?_, ?_⟩
    · rw [fmtNoArgs]
      by_cases hc : c = '%'
      · rw [if_pos hc, ih.2, hc]
        simp [countQL]
      · rw [if_neg hc]
        simp [countQL, ih.1]
    · rw [fmtVerb]
      by_cases hc : c = '%'
      · rw [if_pos hc, hc]
        simp [countQL, ih.1]
      · rw [if_neg hc]
        by_cases hf : isFlagChar c
        · rw [if_pos hf, ih.2]
          have hne : c ≠ '?' := isFlagChar_ne_mark c hf
          simp [countQL, hne]
        · rw [if_neg hf]
          rw [countQL_append, countQL_append, countQL_append, ih.1]
          have h1 : countQL "%!".data = 0 := rfl
          have h2 : countQL "(MISSING)".data = 0 := rfl
          simp [h1, h2, countQL]

theorem countQ_fmtNoArgsStr (s : String) : countQ (fmtNoArgsStr s) = countQ s :=
  (countQL_fmt s.data).1

/-! ### Placeholder-loop lemmas -/

theorem countQ_singleton (c : Char) :
    countQ (String.singleton c) = if c = '?' then 1 else 0 := by
  show countQL [c] = _
  simp [countQL]

/-- If every in-range mark handler keeps the mark/argument balance, so does
the whole scan. -/
theorem replaceLoop_parity (step : Nat → Except String (String × List GoVal)) :
    ∀ (cs : List Char) (i : Nat),
      (∀ j, i < j → j ≤ i + countQL cs →
        ∀ t a, step j = .ok (t, a) → countQ t = a.length) →
      ∀ t a, replaceLoop step cs i = .ok (t, a) → countQ t = a.length := by
  intro cs
  induction cs with
  | nil =>
    intro i _ t a h
    rw [replaceLoop] at h
    cases h
    rfl
  | cons c rest ih =>
    intro i H t a h
    rw [replaceLoop] at h
    by_cases hc : c = '?'
    · rw [if_pos hc] at h
      cases hstep : step (i + 1) with
      | error e => rw [hstep] at h; cases h
      | ok p1 =>
        obtain ⟨t1, a1⟩ := p1
        rw [hstep] at h
        cases hrec : replaceLoop step rest (i + 1) with
        | error e => rw [hrec] at h; cases h
        | ok p2 =>
          obtain ⟨t2, a2⟩ := p2
          rw [hrec] at h
          have h1 : countQ t1 = a1.length := by
            refine H (i + 1) (by omega) ?_ t1 a1 hstep
            rw [countQL, if_pos hc]; omega
          have h2 : countQ t2 = a2.length := by
            refine ih (i + 1) ?_ t2 a2 hrec
            intro j hj1 hj2 t' a' hs
            refine H j (by omega) ?_ t' a' hs
            rw [countQL, if_pos hc]; omega
          cases h
          simp [countQ_append, h1, h2]
    · rw [if_neg hc] at h
      cases hrec : replaceLoop step rest i with
      | error e => rw [hrec] at h; cases h
      | ok p2 =>
        obtain ⟨t2, a2⟩ := p2
        rw [hrec] at h
        have h2 : countQ t2 = a2.length := by
          refine ih i ?_ t2 a2 hrec
          intro j hj1 hj2 t' a' hs
          refine H j hj1 ?_ t' a' hs
          rw [countQL, if_neg hc]; omega
        cases h
        rw [countQ_append, countQ_singleton, if_neg hc, h2]
        omega

/-- Scanning a concatenation splits at the boundary, the mark counter
advancing by the number of marks in the first part. -/
theorem replaceLoop_append (step : Nat → Except String (String × List GoVal))
    (l1 l2 : List Char) :
    ∀ i, replaceLoop step (l1 ++ l2) i =
      match replaceLoop step l1 i with
      | .error e => .error e
      | .ok (t1, a1) =>
        match replaceLoop step l2 (i + countQL l1) with
        | .error e => .error e
        | .ok (t2, a2) => .ok (t1 ++ t2, a1 ++ a2) := by
  induction l1 with
  | nil =>
    intro i
    show replaceLoop step l2 i = _
    rw [replaceLoop]
    cases h : replaceLoop step l2 (i + countQL []) with
    | error e => rw [countQL] at h; simpa using h
    | ok p =>
      obtain ⟨t2, a2⟩ := p
      rw [countQL] at h
      simp at h
      rw [h]
      simp
  | cons c rest ih =>
    intro i
    show replaceLoop step (c :: (rest ++ l2)) i = _
    rw [replaceLoop, replaceLoop]
    by_cases hc : c = '?'
    · rw [if_pos hc, if_pos hc]
      cases hstep : step (i + 1) with
      | error e => rfl
      | ok p1 =>
        obtain ⟨t1, a1⟩ := p1
        rw [ih (i + 1)]
        cases h1 : replaceLoop step rest (i + 1) with
        | error e => rfl
        | ok p2 =>
          obtain ⟨tr, ar⟩ := p2
          have hcount : i + 1 + countQL rest = i + countQL (c :: rest) := by
            rw [countQL, if_pos hc]; omega
          rw [hcount]
          cases h2 : replaceLoop step l2 (i + countQL (c :: rest)) with
          | error e => rfl
          | ok p3 =>
            obtain ⟨t2, a2⟩ := p3
            simp [List.append_assoc, String.append_assoc]
    · rw [if_neg hc, if_neg hc]
      rw [ih i]
      cases h1 : replaceLoop step rest i with
      | error e => rfl
      | ok p2 =>
        obtain ⟨tr, ar⟩ := p2
        have hcount : i + countQL rest = i + countQL (c :: rest) := by
          rw [countQL, if_neg hc]; omega
        rw [hcount]
        cases h2 : replaceLoop step l2 (i + countQL (c :: rest)) with
        | error e => rfl
        | ok p3 =>
          obtain ⟨t2, a2⟩ := p3
          simp [String.append_assoc]

/-- The scalar pre-render of an argument list. -/
def scalarRes (vs : List GoVal) : List StepRes := vs.map StepRes.scalar

/-- With scalar-only arguments the scan reproduces the template text exactly
and collects, in order, the arguments whose positions have marks. -/
theorem replaceLoop_scalars (vs : List GoVal) :
    ∀ (cs : List Char) (i : Nat),
      replaceLoop (exprStep (scalarRes vs)) cs i =
        .ok (⟨cs⟩, (vs.drop i).take (countQL cs)) := by
  intro cs
  induction cs with
  | nil => intro i; rw [replaceLoop, countQL]; simp
  | cons c rest ih =>
    intro i
    rw [replaceLoop]
    by_cases hc : c = '?'
    · subst hc
      rw [if_pos rfl]
      have hstep : exprStep (scalarRes vs) (i + 1) =
          .ok ("?", (vs.drop i).take 1) := by
        rw [exprStep]
        simp only [Nat.add_sub_cancel, scalarRes, List.getElem?_map]
        cases hd : vs.drop i with
        | nil =>
          have hv : vs[i]? = none := by rw [← List.head?_drop, hd]; rfl
          rw [hv]; rfl
        | cons v tl =>
          have hv : vs[i]? = some v := by rw [← List.head?_drop, hd]; rfl
          rw [hv]; rfl
      rw [hstep, ih (i + 1)]
      rw [countQL, if_pos rfl]
      have hsplit : (vs.drop i).take (1 + countQL rest) =
          (vs.drop i).take 1 ++ (vs.drop (i + 1)).take (countQL rest) := by
        rw [List.take_add, List.drop_drop]
      rw [hsplit]
      rfl
    · rw [if_neg hc]
      rw [ih i]
      rw [countQL, if_neg hc, Nat.zero_add]
      rfl

/-! ### Argument pre-rendering lemmas -/

theorem renderArgs_length (args : List (Sum GoVal Frag)) :
    (renderArgs args).length = args.length := by
  induction args with
  | nil => rfl
  | cons a rest ih => cases a <;> simp [renderArgs, ih]

/-- The per-argument pre-render step (see `renderArgs`). -/
def stepify : Sum GoVal Frag → StepRes
  | .inl v => .scalar v
  | .inr f => .rendered (toSql f)

theorem renderArgs_getElem (args : List (Sum GoVal Frag)) :
    ∀ k : Nat, (renderArgs args)[k]? = (args[k]?).map stepify := by
  induction args with
  | nil => intro k; rfl
  | cons a rest ih =>
    intro k
    cases k with
    | zero => cases a <;> simp [renderArgs, stepify]
    | succ m => cases a <;> simpa [renderArgs] using ih m

theorem argVals_of_no_sqlizer (args : List (Sum GoVal Frag))
    (h : hasSqlizer args = false) :
    (argVals args).length = args.length ∧
      renderArgs args = scalarRes (argVals args) := by
  induction args with
  | nil => exact ⟨rfl, rfl⟩
  | cons a rest ih =>
    cases a with
    | inl v =>
      rw [hasSqlizer] at h
      obtain ⟨h1, h2⟩ := ih h
      refine ⟨by simp [argVals, h1], ?_⟩
      simp [renderArgs, argVals, scalarRes] at h2 ⊢
      exact h2
    | inr f => rw [hasSqlizer] at h; cases h

/-! ### Per-component parity lemmas -/

theorem eqLoop_parity (equalOpr inOpr nullOpr inEmptyExpr : String)
    (he : countQ equalOpr = 0) (hi : countQ inOpr = 0)
    (hn : countQ nullOpr = 0) (hee : countQ inEmptyExpr = 0) :
    ∀ (entries : List (String × GoVal)),
      (∀ p ∈ entries, countQ p.1 = 0) →
      ∀ es as, eqLoop equalOpr inOpr nullOpr inEmptyExpr entries = .ok (es, as) →
        (es.map countQ).sum = as.length := by
  have cSp : countQ " " = 0 := rfl
  have cNull : countQ " NULL" = 0 := rfl
  have cParen : countQ " (" = 0 := rfl
  have cClose : countQ ")" = 0 := rfl
  have cMark : countQ " ?" = 1 := rfl
  intro entries
  induction entries with
  | nil =>
    intro _ es as h
    rw [eqLoop] at h
    cases h
    rfl
  | cons p rest ih =>
    obtain ⟨key, val0⟩ := p
    intro H es as h
    rw [eqLoop] at h
    have hkey : countQ key = 0 := H (key, val0) (by simp)
    cases hu : unwrapValuer val0 with
    | error e => rw [hu] at h; cases h
    | ok val =>
      rw [hu] at h
      cases hrec : eqLoop equalOpr inOpr nullOpr inEmptyExpr rest with
      | error e => simp only [hrec] at h; cases h
      | ok p2 =>
        obtain ⟨es2, as2⟩ := p2
        simp only [hrec] at h
        have hrest := ih (fun q hq => H q (by simp [hq])) es2 as2 hrec
        cases val with
        | null =>
          cases h
          simp only [List.map_cons, List.sum_cons, List.nil_append,
            countQ_append, hkey, hn, cSp, cNull, hrest]
          omega
        | arr vs =>
          cases vs with
          | nil =>
            cases h
            simp only [List.map_cons, List.sum_cons, List.nil_append,
              hee, hrest]
            omega
          | cons v tl =>
            cases h
            simp only [List.map_cons, List.sum_cons, List.length_append,
              List.length_cons, countQ_append, hkey, hi, cSp, cParen,
              cClose, countQ_Placeholders, hrest]
            omega
        | prim s =>
          cases h
          simp only [List.map_cons, List.sum_cons, List.length_cons,
            List.singleton_append, countQ_append, hkey, he, cSp, cMark, hrest]
          omega
        | valuer r =>
          cases h
          simp only [List.map_cons, List.sum_cons, List.length_cons,
            List.singleton_append, countQ_append, hkey, he, cSp, cMark, hrest]
          omega

theorem ltLoop_parity (opr : String) (ho : countQ opr = 0) :
    ∀ (entries : List (String × GoVal)),
      (∀ p ∈ entries, countQ p.1 = 0) →
      ∀ es as, ltLoop opr entries = .ok (es, as) →
        (es.map countQ).sum = as.length := by
  have cSp : countQ " " = 0 := rfl
  have cMark : countQ " ?" = 1 := rfl
  intro entries
  induction entries with
  | nil =>
    intro _ es as h
    rw [ltLoop] at h
    cases h
    rfl
  | cons p rest ih =>
    obtain ⟨key, val0⟩ := p
    intro H es as h
    rw [ltLoop] at h
    have hkey : countQ key = 0 := H (key, val0) (by simp)
    cases hu : unwrapValuer val0 with
    | error e => rw [hu] at h; cases h
    | ok val =>
      rw [hu] at h
      cases val with
      | null => cases h
      | arr vs => cases h
      | prim s =>
        cases hrec : ltLoop opr rest with
        | error e => simp only [hrec] at h; cases h
        | ok p2 =>
          obtain ⟨es2, as2⟩ := p2
          simp only [hrec] at h
          have hrest := ih (fun q hq => H q (by simp [hq])) es2 as2 hrec
          cases h
          simp only [List.map_cons, List.sum_cons, List.length_cons,
            countQ_append, hkey, ho, cSp, cMark, hrest]
          omega
      | valuer r =>
        cases hrec : ltLoop opr rest with
        | error e => simp only [hrec] at h; cases h
        | ok p2 =>
          obtain ⟨es2, as2⟩ := p2
          simp only [hrec] at h
          have hrest := ih (fun q hq => H q (by simp [hq])) es2 as2 hrec
          cases h
          simp only [List.map_cons, List.sum_cons, List.length_cons,
            countQ_append, hkey, ho, cSp, cMark, hrest]
          omega

theorem conjParts_parity (cs : List Frag)
    (H : ∀ g ∈ cs, ∀ s a, toSql g = .ok (s, a) → countQ s = a.length) :
    ∀ ss as, conjParts cs = .ok (ss, as) → (ss.map countQ).sum = as.length := by
  induction cs with
  | nil =>
    intro ss as h
    rw [conjParts] at h
    cases h
    rfl
  | cons g rest ih =>
    intro ss as h
    rw [conjParts] at h
    cases hg : toSql g with
    | error e => rw [hg] at h; cases h
    | ok p1 =>
      obtain ⟨s1, a1⟩ := p1
      rw [hg] at h
      cases hrec : conjParts rest with
      | error e => simp only [hrec] at h; cases h
      | ok p2 =>
        obtain ⟨ss2, as2⟩ := p2
        simp only [hrec] at h
        have h1 : countQ s1 = a1.length := H g (by simp) s1 a1 hg
        have hrest := ih (fun q hq => H q (by simp [hq])) ss2 as2 hrec
        by_cases hs : s1 = ""
        · rw [if_pos hs] at h
          cases h
          exact hrest
        · rw [if_neg hs] at h
          cases h
          simp only [List.map_cons, List.sum_cons, List.length_append,
            h1, hrest]

theorem fnLoop_parity (cs : List Frag)
    (H : ∀ g ∈ cs, ∀ s a, toSql g = .ok (s, a) → countQ s = a.length) :
    ∀ ss as, fnLoop cs = .ok (ss, as) → (ss.map countQ).sum = as.length := by
  induction cs with
  | nil =>
    intro ss as h
    rw [fnLoop] at h
    cases h
    rfl
  | cons g rest ih =>
    intro ss as h
    rw [fnLoop] at h
    cases hg : toSql g with
    | error e => rw [hg] at h; cases h
    | ok p1 =>
      obtain ⟨s1, a1⟩ := p1
      rw [hg] at h
      cases hrec : fnLoop rest with
      | error e => simp only [hrec] at h; cases h
      | ok p2 =>
        obtain ⟨ss2, as2⟩ := p2
        simp only [hrec] at h
        have h1 : countQ s1 = a1.length := H g (by simp) s1 a1 hg
        have hrest := ih (fun q hq => H q (by simp [hq])) ss2 as2 hrec
        cases h
        simp only [List.map_cons, List.sum_cons, List.length_append,
          h1, hrest]

theorem concatParts_parity (parts : List (Sum String (Option Frag)))
    (Hs : ∀ s, Sum.inl s ∈ parts → countQ s = 0)
    (Hf : ∀ f, Sum.inr (some f) ∈ parts →
      ∀ t a, toSql f = .ok (t, a) → countQ t = a.length) :
    ∀ t a, concatParts parts = .ok (t, a) → countQ t = a.length := by
  induction parts with
  | nil =>
    intro t a h
    rw [concatParts] at h
    cases h
    rfl
  | cons p rest ih =>
    intro t a h
    cases p with
    | inl s =>
      rw [concatParts] at h
      cases hrec : concatParts rest with
      | error e => rw [hrec] at h; cases h
      | ok p2 =>
        obtain ⟨t2, a2⟩ := p2
        rw [hrec] at h
        have hrest := ih (fun q hq => Hs q (by simp [hq]))
          (fun q hq => Hf q (by simp [hq])) t2 a2 hrec
        cases h
        rw [countQ_append, Hs s (by simp), hrest]
        omega
    | inr o =>
      cases o with
      | none => rw [concatParts] at h; cases h
      | some f =>
        rw [concatParts] at h
        cases hg : toSql f with
        | error e => rw [hg] at h; cases h
        | ok p1 =>
          obtain ⟨s1, a1⟩ := p1
          rw [hg] at h
          cases hrec : concatParts rest with
          | error e => simp only [hrec] at h; cases h
          | ok p2 =>
            obtain ⟨t2, a2⟩ := p2
            simp only [hrec] at h
            have h1 : countQ s1 = a1.length := Hf f (by simp) s1 a1 hg
            have hrest := ih (fun q hq => Hs q (by simp [hq]))
              (fun q hq => Hf q (by simp [hq])) t2 a2 hrec
            cases h
            simp only [countQ_append, List.length_append, h1, hrest]

theorem exprStep_parity (args : List (Sum GoVal Frag))
    (H : ∀ f, Sum.inr f ∈ args →
      ∀ s a, toSql f = .ok (s, a) → countQ s = a.length) :
    ∀ j, 0 < j → j ≤ args.length →
      ∀ t a, exprStep (renderArgs args) j = .ok (t, a) → countQ t = a.length := by
  intro j hj1 hj2 t a h
  rw [exprStep, renderArgs_getElem] at h
  cases hv : args[j - 1]? with
  | none =>
    rw [List.getElem?_eq_none_iff] at hv
    omega
  | some x =>
    rw [hv] at h
    cases x with
    | inl v =>
      cases h
      rfl
    | inr f =>
      have hmem : Sum.inr f ∈ args := by
        obtain ⟨hlt, hg⟩ := List.getElem?_eq_some.mp hv
        exact hg ▸ List.getElem_mem hlt
      simp only [Option.map, stepify] at h
      cases hr : toSql f with
      | error e => rw [hr] at h; cases h
      | ok p =>
        obtain ⟨s1, a1⟩ := p
        rw [hr] at h
        have hp := H f hmem s1 a1 hr
        cases h
        rw [countQ_fmtNoArgsStr]
        exact hp

/-! ### The well-formedness predicate distributes over membership -/

theorem noStrayArgs_mem (args : List (Sum GoVal Frag)) (g : Frag)
    (hall : noStrayArgs args = true) (hmem : Sum.inr g ∈ args) :
    noStray g = true := by
  induction args with
  | nil => cases hmem
  | cons a rest ih =>
    cases hmem with
    | head =>
      rw [noStrayArgs, Bool.and_eq_true] at hall
      exact hall.1
    | tail b hb =>
      cases a with
      | inl v => exact ih hall hb
      | inr f =>
        rw [noStrayArgs, Bool.and_eq_true] at hall
        exact ih hall.2 hb

theorem noStrayList_mem (cs : List Frag) (g : Frag)
    (hall : noStrayList cs = true) (hmem : g ∈ cs) : noStray g = true := by
  induction cs with
  | nil => cases hmem
  | cons a rest ih =>
    rw [noStrayList, Bool.and_eq_true] at hall
    cases hmem with
    | head => exact hall.1
    | tail b hb => exact ih hall.2 hb

theorem noStrayParts_str (parts : List (Sum String (Option Frag))) (s : String)
    (hall : noStrayParts parts = true) (hmem : Sum.inl s ∈ parts) :
    countQ s = 0 := by
  induction parts with
  | nil => cases hmem
  | cons a rest ih =>
    cases hmem with
    | head =>
      rw [noStrayParts, Bool.and_eq_true] at hall
      simpa using hall.1
    | tail b hb =>
      cases a with
      | inl t =>
        rw [noStrayParts, Bool.and_eq_true] at hall
        exact ih hall.2 hb
      | inr o =>
        cases o with
        | none => exact ih (by rwa [noStrayParts] at hall) hb
        | some f =>
          rw [noStrayParts, Bool.and_eq_true] at hall
          exact ih hall.2 hb

theorem noStrayParts_frag (parts : List (Sum String (Option Frag))) (g : Frag)
    (hall : noStrayParts parts = true) (hmem : Sum.inr (some g) ∈ parts) :
    noStray g = true := by
  induction parts with
  | nil => cases hmem
  | cons a rest ih =>
    cases hmem with
    | head =>
      rw [noStrayParts, Bool.and_eq_true] at hall
      exact hall.1
    | tail b hb =>
      cases a with
      | inl t =>
        rw [noStrayParts, Bool.and_eq_true] at hall
        exact ih hall.2 hb
      | inr o =>
        cases o with
        | none => exact ih (by rwa [noStrayParts] at hall) hb
        | some f =>
          rw [noStrayParts, Bool.and_eq_true] at hall
          exact ih hall.2 hb

/-! ### Branch-selected forms of the predicate builders -/

theorem eqToSql_def (entries : List (String × GoVal)) (u : Bool) :
    eqToSql entries u =
      match eqLoop (if u then "<>" else "=") (if u then "NOT IN" else "IN")
          (if u then "IS NOT" else "IS") (if u then "(1=1)" else "(1=0)")
          entries with
      | .error e => .error e
      | .ok (es, as) => .ok (joinSep " AND " es, as) := rfl

theorem ltToSql_def (entries : List (String × GoVal)) (opposite orEq : Bool) :
    ltToSql entries opposite orEq =
      match ltLoop ((if opposite then ">" else "<") ++
          (if orEq then "=" else "")) entries with
      | .error e => .error e
      | .ok (es, as) => .ok (joinSep " AND " es, as) := rfl

theorem countQ_ltOpr (opposite orEq : Bool) :
    countQ ((if opposite then ">" else "<") ++ (if orEq then "=" else "")) = 0 := by
  cases opposite <;> cases orEq <;> rfl

/-! ### The main parity invariant -/

theorem toSql_parity_aux (n : Nat) :
    ∀ (f : Frag), sizeOf f = n → noStray f = true →
      ∀ s a, toSql f = .ok (s, a) → countQ s = a.length := by
  induction n using Nat.strong_induction_on with
  | _ n ih =>
  intro f hsz hns s a h
  have cAnd : countQ " AND " = 0 := rfl
  have cOr : countQ " OR " = 0 := rfl
  cases f with
  | expr sql args =>
    rw [noStray, Bool.and_eq_true] at hns
    have hc : countQ sql = args.length := by
      have := hns.1
      simpa using this
    have H : ∀ g, Sum.inr g ∈ args →
        ∀ s a, toSql g = .ok (s, a) → countQ s = a.length := by
      intro g hmem s1 a1 hg
      have hlt : sizeOf g < n := by
        have h1 := List.sizeOf_lt_of_mem hmem
        rw [Sum.inr.sizeOf_spec] at h1
        rw [← hsz, Frag.expr.sizeOf_spec]
        omega
      exact ih (sizeOf g) hlt g rfl (noStrayArgs_mem args g hns.2 hmem) s1 a1 hg
    rw [toSql] at h
    by_cases hq : hasSqlizer args
    · rw [if_pos hq] at h
      rw [exprGeneral] at h
      refine replaceLoop_parity (exprStep (renderArgs args)) sql.data 0 ?_ s a h
      intro j hj1 hj2 t1 a1 hstep
      refine exprStep_parity args H j hj1 ?_ t1 a1 hstep
      have : countQL sql.data = countQ sql := rfl
      omega
    · rw [if_neg hq] at h
      cases h
      rw [hc, (argVals_of_no_sqlizer args (by simpa using hq)).1]
  | eq entries u =>
    rw [noStray] at hns
    have hkeys : ∀ p ∈ entries, countQ p.1 = 0 := by
      intro p hp
      have := List.all_eq_true.mp hns p hp
      simpa using this
    rw [toSql, eqToSql_def] at h
    cases hl : eqLoop (if u then "<>" else "=") (if u then "NOT IN" else "IN")
        (if u then "IS NOT" else "IS") (if u then "(1=1)" else "(1=0)")
        entries with
    | error e => rw [hl] at h; cases h
    | ok p =>
      obtain ⟨es, as2⟩ := p
      rw [hl] at h
      have hsum : (es.map countQ).sum = as2.length := by
        refine eqLoop_parity _ _ _ _ ?_ ?_ ?_ ?_ entries hkeys es as2 hl <;>
          cases u <;> rfl
      cases h
      rw [countQ_joinSep " AND " cAnd, hsum]
  | lt entries opposite orEq =>
    rw [noStray] at hns
    have hkeys : ∀ p ∈ entries, countQ p.1 = 0 := by
      intro p hp
      have := List.all_eq_true.mp hns p hp
      simpa using this
    rw [toSql, ltToSql_def] at h
    cases hl : ltLoop ((if opposite then ">" else "<") ++
        (if orEq then "=" else "")) entries with
    | error e => rw [hl] at h; cases h
    | ok p =>
      obtain ⟨es, as2⟩ := p
      rw [hl] at h
      have hsum : (es.map countQ).sum = as2.length :=
        ltLoop_parity _ (countQ_ltOpr opposite orEq) entries hkeys es as2 hl
      cases h
      rw [countQ_joinSep " AND " cAnd, hsum]
  | and cs =>
    rw [noStray] at hns
    have H : ∀ g ∈ cs, ∀ s a, toSql g = .ok (s, a) → countQ s = a.length := by
      intro g hmem s1 a1 hg
      have hlt : sizeOf g < n := by
        have h1 := List.sizeOf_lt_of_mem hmem
        rw [← hsz, Frag.and.sizeOf_spec]
        omega
      exact ih (sizeOf g) hlt g rfl (noStrayList_mem cs g hns hmem) s1 a1 hg
    rw [toSql] at h
    cases hl : conjParts cs with
    | error e => rw [hl] at h; cases h
    | ok p =>
      obtain ⟨ss, as2⟩ := p
      rw [hl] at h
      have hsum := conjParts_parity cs H ss as2 hl
      cases h
      cases ss with
      | nil =>
        rw [if_pos (by simp)]
        have h0 := hsum.symm
        simp only [List.map_nil, List.sum_nil] at h0
        have hc0 : countQ "" = 0 := rfl
        omega
      | cons s1 rest =>
        rw [if_neg (by simp)]
        rw [countQ_append, countQ_append, countQ_joinSep " AND " cAnd]
        have c1 : countQ "(" = 0 := rfl
        have c2 : countQ ")" = 0 := rfl
        rw [c1, c2, hsum]
        omega
  | or cs =>
    rw [noStray] at hns
    have H : ∀ g ∈ cs, ∀ s a, toSql g = .ok (s, a) → countQ s = a.length := by
      intro g hmem s1 a1 hg
      have hlt : sizeOf g < n := by
        have h1 := List.sizeOf_lt_of_mem hmem
        rw [← hsz, Frag.or.sizeOf_spec]
        omega
      exact ih (sizeOf g) hlt g rfl (noStrayList_mem cs g hns hmem) s1 a1 hg
    rw [toSql] at h
    cases hl : conjParts cs with
    | error e => rw [hl] at h; cases h
    | ok p =>
      obtain ⟨ss, as2⟩ := p
      rw [hl] at h
      have hsum := conjParts_parity cs H ss as2 hl
      cases h
      cases ss with
      | nil =>
        rw [if_pos (by simp)]
        have h0 := hsum.symm
        simp only [List.map_nil, List.sum_nil] at h0
        have hc0 : countQ "" = 0 := rfl
        omega
      | cons s1 rest =>
        rw [if_neg (by simp)]
        rw [countQ_append, countQ_append, countQ_joinSep " OR " cOr]
        have c1 : countQ "(" = 0 := rfl
        have c2 : countQ ")" = 0 := rfl
        rw [c1, c2, hsum]
        omega
  | concat parts =>
    rw [noStray] at hns
    have Hf : ∀ g, Sum.inr (some g) ∈ parts →
        ∀ s a, toSql g = .ok (s, a) → countQ s = a.length := by
      intro g hmem s1 a1 hg
      have hlt : sizeOf g < n := by
        have h1 := List.sizeOf_lt_of_mem hmem
        rw [Sum.inr.sizeOf_spec, Option.some.sizeOf_spec] at h1
        rw [← hsz, Frag.concat.sizeOf_spec]
        omega
      exact ih (sizeOf g) hlt g rfl (noStrayParts_frag parts g hns hmem) s1 a1 hg
    rw [toSql] at h
    exact concatParts_parity parts (fun q hq => noStrayParts_str parts q hns hq)
      Hf s a h
  | fn name fargs =>
    rw [noStray, Bool.and_eq_true] at hns
    have H : ∀ g ∈ fargs, ∀ s a, toSql g = .ok (s, a) → countQ s = a.length := by
      intro g hmem s1 a1 hg
      have hlt : sizeOf g < n := by
        have h1 := List.sizeOf_lt_of_mem hmem
        rw [← hsz, Frag.fn.sizeOf_spec]
        omega
      exact ih (sizeOf g) hlt g rfl (noStrayList_mem fargs g hns.2 hmem) s1 a1 hg
    rw [toSql] at h
    cases hl : fnLoop fargs with
    | error e => rw [hl] at h; cases h
    | ok p =>
      obtain ⟨ss, as2⟩ := p
      rw [hl] at h
      have hsum := fnLoop_parity fargs H ss as2 hl
      have hname : countQ name = 0 := by simpa using hns.1
      cases h
      rw [countQ_append, countQ_append, countQ_append,
        countQ_joinSep ", " (by rfl), hname, hsum]
      have c1 : countQ "(" = 0 := rfl
      have c2 : countQ ")" = 0 := rfl
      rw [c1, c2]
      omega
  | json jb m =>
    cases m with
    | error e =>
      have hv : toSql (Frag.json jb (.error e)) = .error
          ("Failed to serialize " ++ (if jb then "jsonb" else "json") ++
            " value: " ++ e) := rfl
      rw [hv] at h
      cases h
    | ok v =>
      have hv : toSql (Frag.json jb (.ok v)) =
          .ok ("?::" ++ (if jb then "jsonb" else "json"), [GoVal.prim v]) := rfl
      rw [hv] at h
      cases h
      cases jb <;> rfl

/-- Parity invariant, packaged: for every well-formed fragment tree, a
successful render has exactly as many placeholder marks as arguments. -/
theorem toSql_parity (f : Frag) (hns : noStray f = true)
    (s : String) (a : List GoVal) (h : toSql f = .ok (s, a)) :
    countQ s = a.length :=
  toSql_parity_aux (sizeOf f) f rfl hns s a h

/-! ### Spec-side clause shapes (stated from the specification's words, to be
compared against the source translation) -/

/-- The per-entry clause of the equality family exactly as spec §4.3 words
it: null → IS [NOT] NULL with no argument; empty list → the tautology with
no argument; list of N>0 elements → [NOT] IN with N marks and the N elements
as arguments in iteration order; otherwise a single comparison binding the
value. -/
def eqClauseSpec (useNot : Bool) (key : String) (v : GoVal) : String × List GoVal :=
  match v with
  | .null => (key ++ (if useNot then " IS NOT NULL" else " IS NULL"), [])
  | .arr [] => ((if useNot then "(1=1)" else "(1=0)"), [])
  | .arr vs => (key ++ (if useNot then " NOT IN (" else " IN (") ++
      Placeholders vs.length ++ ")", vs)
  | v => (key ++ (if useNot then " <> ?" else " = ?"), [v])

/-- The combined AND/OR output exactly as spec §4.4 words it: skip children
with empty text (and their arguments), parenthesize and join the rest,
concatenate the kept children's arguments in child order. -/
def conjSpec (sep : String) (rs : List (String × List GoVal)) : String × List GoVal :=
  let ne := rs.filter (fun r => r.1 ≠ "")
  ((if ne.isEmpty then "" else "(" ++ joinSep sep (ne.map Prod.fst) ++ ")"),
    (ne.map Prod.snd).flatten)

/-! ### Characterization lemmas for the predicate loops -/

theorem unwrapValuer_of_not_valuer (v : GoVal) (h : isValuerV v = false) :
    unwrapValuer v = .ok v := by
  cases v <;> simp [unwrapValuer] <;> cases h

theorem eqLoop_spec (u : Bool) (entries : List (String × GoVal))
    (hv : ∀ p ∈ entries, isValuerV p.2 = false) :
    eqLoop (if u then "<>" else "=") (if u then "NOT IN" else "IN")
        (if u then "IS NOT" else "IS") (if u then "(1=1)" else "(1=0)")
        entries =
      .ok (entries.map (fun p => (eqClauseSpec u p.1 p.2).1),
        (entries.map (fun p => (eqClauseSpec u p.1 p.2).2)).flatten) := by
  induction entries with
  | nil => rfl
  | cons p rest ih =>
    obtain ⟨key, v⟩ := p
    rw [eqLoop, unwrapValuer_of_not_valuer v (hv (key, v) (by simp)),
      ih (fun q hq => hv q (by simp [hq]))]
    cases v with
    | null => cases u <;> simp [eqClauseSpec, String.append_assoc] <;> rfl
    | prim s => cases u <;> simp [eqClauseSpec, String.append_assoc] <;> rfl
    | arr vs =>
      cases vs with
      | nil => cases u <;> simp [eqClauseSpec] <;> rfl
      | cons w tl =>
        cases u <;> simp [eqClauseSpec, String.append_assoc] <;> rfl
    | valuer r => exact absurd (hv (key, .valuer r) (by simp)) (by simp [isValuerV])

theorem ltLoop_spec (opr : String) (entries : List (String × GoVal))
    (hs : ∀ p ∈ entries, isScalarV p.2 = true) :
    ltLoop opr entries =
      .ok (entries.map (fun p => p.1 ++ " " ++ opr ++ " ?"),
        entries.map Prod.snd) := by
  induction entries with
  | nil => rfl
  | cons p rest ih =>
    obtain ⟨key, v⟩ := p
    have hsv := hs (key, v) (by simp)
    cases v with
    | prim s =>
      rw [ltLoop]
      rw [show unwrapValuer (GoVal.prim s) = .ok (GoVal.prim s) from rfl]
      rw [ih (fun q hq => hs q (by simp [hq]))]
      rfl
    | null => cases hsv
    | arr vs => cases hsv
    | valuer r => cases hsv

theorem ltLoop_err (opr : String) (entries : List (String × GoVal))
    (hv : ∀ p ∈ entries, isValuerV p.2 = false)
    (hbad : ∃ p ∈ entries, p.2 = GoVal.null ∨ isListType p.2 = true) :
    ∃ e, ltLoop opr entries = .error e := by
  induction entries with
  | nil => simp at hbad
  | cons p rest ih =>
    obtain ⟨key, v⟩ := p
    cases v with
    | null => exact ⟨_, by rw [ltLoop]; rfl⟩
    | arr vs => exact ⟨_, by rw [ltLoop]; rfl⟩
    | valuer r => exact absurd (hv (key, .valuer r) (by simp)) (by simp [isValuerV])
    | prim s =>
      have hrest : ∃ p ∈ rest, p.2 = GoVal.null ∨ isListType p.2 = true := by
        obtain ⟨q, hq, hqbad⟩ := hbad
        rcases List.mem_cons.mp hq with hq1 | hq2
        · subst hq1; simp [isListType] at hqbad
        · exact ⟨q, hq2, hqbad⟩
      obtain ⟨e, he⟩ := ih (fun q hq => hv q (by simp [hq])) hrest
      refine ⟨e, ?_⟩
      rw [ltLoop]
      rw [show unwrapValuer (GoVal.prim s) = .ok (GoVal.prim s) from rfl]
      rw [he]

/-! ### Characterization lemmas for the conjunctions -/

theorem conjParts_forall2 (cs : List Frag) (rs : List (String × List GoVal))
    (h : List.Forall₂ (fun c r => toSql c = .ok r) cs rs) :
    conjParts cs = .ok ((rs.filter (fun r => r.1 ≠ "")).map Prod.fst,
      ((rs.filter (fun r => r.1 ≠ "")).map Prod.snd).flatten) := by
  induction h with
  | nil => rfl
  | cons hcr hrest ih =>
    rename_i c r cs2 rs2
    rw [conjParts, hcr, ih]
    obtain ⟨s1, a1⟩ := r
    by_cases hs : s1 = ""
    · subst hs
      simp [List.filter_cons]
    · simp [List.filter_cons, hs]

theorem conjParts_err (c : Frag) (e : String) (hc : toSql c = .error e) :
    ∀ (pre rest : List Frag), (∀ g ∈ pre, ∃ r, toSql g = .ok r) →
      conjParts (pre ++ c :: rest) = .error e := by
  intro pre
  induction pre with
  | nil =>
    intro rest _
    rw [List.nil_append, conjParts, hc]
  | cons g pre2 ih =>
    intro rest hok
    obtain ⟨⟨s1, a1⟩, hg⟩ := hok g (by simp)
    rw [List.cons_append, conjParts, hg, ih rest (fun q hq => hok q (by simp [hq]))]

theorem conjParts_all_empty (cs : List Frag)
    (h : ∀ g ∈ cs, ∃ a, toSql g = .ok ("", a)) :
    conjParts cs = .ok ([], []) := by
  induction cs with
  | nil => rfl
  | cons g rest ih =>
    obtain ⟨a, hg⟩ := h g (by simp)
    rw [conjParts, hg, ih (fun q hq => h q (by simp [hq]))]
    rfl

theorem conjParts_skip (c : Frag) (cs : List Frag) (a : List GoVal)
    (hc : toSql c = .ok ("", a)) :
    conjParts (c :: cs) = conjParts cs := by
  rw [conjParts, hc]
  cases h : conjParts cs with
  | error e => rfl
  | ok p => obtain ⟨ss, as⟩ := p; rfl

/-- Once the scan position has passed the last supplied argument, every
remaining character — placeholder marks included, wherever they sit —
passes through unchanged, with no argument appended and no error. -/
theorem replaceLoop_out_of_range (rs : List StepRes) :
    ∀ (cs : List Char) (i : Nat), rs.length ≤ i →
      replaceLoop (exprStep rs) cs i = .ok (⟨cs⟩, []) := by
  intro cs
  induction cs with
  | nil => intro i _; rfl
  | cons c rest ih =>
    intro i hi
    rw [replaceLoop]
    by_cases hc : c = '?'
    · subst hc
      rw [if_pos rfl]
      have hstep : exprStep rs (i + 1) = .ok ("?", []) := by
        rw [exprStep]
        rw [List.getElem?_eq_none (by omega)]
      rw [hstep, ih (i + 1) (by omega)]
      rfl
    · rw [if_neg hc]
      rw [ih i hi]
      rfl

theorem toSql_expr_def (sql : String) (args : List (Sum GoVal Frag)) :
    toSql (.expr sql args) =
      if hasSqlizer args then exprGeneral sql (renderArgs args)
      else .ok (sql, argVals args) := by
  rw [toSql]

theorem toSql_and_def (cs : List Frag) :
    toSql (.and cs) =
      match conjParts cs with
      | .error e => .error e
      | .ok (ss, as) =>
        .ok (if ss.isEmpty then "" else "(" ++ joinSep " AND " ss ++ ")", as) := by
  rw [toSql]

theorem toSql_or_def (cs : List Frag) :
    toSql (.or cs) =
      match conjParts cs with
      | .error e => .error e
      | .ok (ss, as) =>
        .ok (if ss.isEmpty then "" else "(" ++ joinSep " OR " ss ++ ")", as) := by
  rw [toSql]

/-- The fast path of `expr.ToSql` (expr.go:26-28): template and arguments
pass through unchanged. -/
def exprFastPath (sql : String) (args : List (Sum GoVal Frag)) :
    Except String (String × List GoVal) := .ok (sql, argVals args)

/-- The general placeholder-expansion path of `expr.ToSql` (expr.go:30-53)
run unconditionally on the same input. -/
def exprGeneralPath (sql : String) (args : List (Sum GoVal Frag)) :
    Except String (String × List GoVal) := exprGeneral sql (renderArgs args)

/-! ## Claim theorems -/

/-- C1 (counterexample): the parity claim as stated is false.  The fragment
`Eq{"a?": 1}` has no raw leaf template at all, so the claim's hypothesis is
vacuously satisfied, yet its successful render has two unresolved marks and
one argument: the mark hiding in the mapping key breaks the balance. -/
theorem claim_C1_counterexample :
    toSql (.eq [("a?", GoVal.prim "1")] false) =
        .ok ("a? = ?", [GoVal.prim "1"]) ∧
      countQ "a? = ?" ≠ [GoVal.prim "1"].length :=
  ⟨rfl, by decide⟩

/-- C1 (amended): under the claim's hypothesis on raw leaf templates
strengthened to also require that predicate-map keys, raw concatenation
segments and function-call names contain no placeholder mark (`noStray`),
every successful ToSql render of every core fragment has exactly as many
unresolved marks in its text as entries in its argument list, and this holds
at every composition boundary since it holds for every subtree. -/
theorem claim_C1_amended (f : Frag) (hns : noStray f = true)
    (s : String) (a : List GoVal) (h : toSql f = .ok (s, a)) :
    countQ s = a.length :=
  toSql_parity f hns s a h

/-- C1 witness: the amended parity theorem applied to a concrete
well-formed fragment. -/
theorem claim_C1_witness :
    countQ "a = ? AND b IN (?,?)" =
      [GoVal.prim "1", GoVal.prim "2", GoVal.prim "3"].length :=
  claim_C1_amended
    (.eq [("a", GoVal.prim "1"),
      ("b", GoVal.arr [GoVal.prim "2", GoVal.prim "3"])] false)
    (by decide) "a = ? AND b IN (?,?)"
    [GoVal.prim "1", GoVal.prim "2", GoVal.prim "3"] rfl

/-- C2 (code bug, evaluation): `Lt.toSql` iterates its map with Go `range`,
whose order is unspecified and randomized per loop.  The two entry lists
below are both legal enumerations of the single map `Lt{"a": 1, "b": 2}`,
so two successive renders of the same unmodified fragment may produce the
two different texts below, contradicting the required repeatability. -/
theorem claim_C2_theorem :
    toSql (.lt [("a", GoVal.prim "1"), ("b", GoVal.prim "2")] false false) =
        .ok ("a < ? AND b < ?", [GoVal.prim "1", GoVal.prim "2"]) ∧
      toSql (.lt [("b", GoVal.prim "2"), ("a", GoVal.prim "1")] false false) =
        .ok ("b < ? AND a < ?", [GoVal.prim "2", GoVal.prim "1"]) ∧
      ("a < ? AND b < ?" : String) ≠ "b < ? AND a < ?" :=
  ⟨rfl, rfl, by decide⟩

/-- C3 (code bug, evaluation): nested-fragment splicing is not verbatim.
expr.go:43 writes the nested text with `fmt.Fprintf(buf, sql)`, so the
rendered text is interpreted as a format string: a nested fragment
rendering to `"100%"` is spliced as `"100%!(NOVERB)"`. -/
theorem claim_C3_theorem :
    toSql (.expr "?" [Sum.inr (Frag.expr "100%" [])]) =
        .ok ("100%!(NOVERB)", []) ∧
      ("100%!(NOVERB)" : String) ≠ "100%" :=
  ⟨rfl, by decide⟩

/-- C4: every entry of an Eq/NotEq mapping renders exactly the clause the
claim describes — `IS [NOT] NULL` for null with no argument, the
`(1=0)`/`(1=1)` tautology for an empty list with no argument, `[NOT] IN`
with N marks and the N elements as arguments in iteration order for a list
of N>0 elements, and a single `=`/`<>` comparison binding the value
otherwise — and the per-key clauses are joined with `" AND "`.  Values are
the post-`driver.Valuer`-unwrapping values, modelled as valuer-free. -/
theorem claim_C4_theorem (entries : List (String × GoVal)) (u : Bool)
    (hv : ∀ p ∈ entries, isValuerV p.2 = false) :
    toSql (.eq entries u) =
      .ok (joinSep " AND " (entries.map (fun p => (eqClauseSpec u p.1 p.2).1)),
        (entries.map (fun p => (eqClauseSpec u p.1 p.2).2)).flatten) := by
  rw [toSql, eqToSql_def, eqLoop_spec u entries hv]

/-- C4 witness: one entry of each shape, negated variant. -/
theorem claim_C4_witness :
    toSql (.eq [("a", GoVal.null),
      ("b", GoVal.arr [GoVal.prim "1", GoVal.prim "2"]),
      ("c", GoVal.prim "3"), ("d", GoVal.arr [])] true) =
      .ok ("a IS NOT NULL AND b NOT IN (?,?) AND c <> ? AND (1=1)",
        [GoVal.prim "1", GoVal.prim "2", GoVal.prim "3"]) := by
  have h := claim_C4_theorem [("a", GoVal.null),
      ("b", GoVal.arr [GoVal.prim "1", GoVal.prim "2"]),
      ("c", GoVal.prim "3"), ("d", GoVal.arr [])] true
    (by
      intro p hp
      simp only [List.mem_cons, List.not_mem_nil, or_false] at hp
      rcases hp with rfl | rfl | rfl | rfl <;> rfl)
  exact h.trans rfl

/-- C5: And/Or render children in order, omit empty-text children entirely
(no separator, no arguments), join the remaining texts with the operator
inside one parenthesized group, and concatenate the kept children's
arguments in child order (first conjunct); and they short-circuit on the
first failing child, returning its error unchanged irrespective of the
children after it (second conjunct). -/
theorem claim_C5_theorem :
    (∀ (cs : List Frag) (rs : List (String × List GoVal)),
      List.Forall₂ (fun c r => toSql c = .ok r) cs rs →
        toSql (.and cs) = .ok (conjSpec " AND " rs) ∧
        toSql (.or cs) = .ok (conjSpec " OR " rs)) ∧
    (∀ (pre : List Frag) (c : Frag) (rest : List Frag) (e : String),
      (∀ g ∈ pre, ∃ r, toSql g = .ok r) → toSql c = .error e →
        toSql (.and (pre ++ c :: rest)) = .error e ∧
        toSql (.or (pre ++ c :: rest)) = .error e) := by
  constructor
  · intro cs rs h
    have hp := conjParts_forall2 cs rs h
    constructor
    · rw [toSql_and_def, hp, conjSpec]
      cases hf : rs.filter (fun r => r.1 ≠ "") with
      | nil => rfl
      | cons r rest2 => rfl
    · rw [toSql_or_def, hp, conjSpec]
      cases hf : rs.filter (fun r => r.1 ≠ "") with
      | nil => rfl
      | cons r rest2 => rfl
  · intro pre c rest e hok hc
    have hp := conjParts_err c e hc pre rest hok
    exact ⟨by rw [toSql_and_def, hp], by rw [toSql_or_def, hp]⟩

/-- C5 witness: a three-child conjunction whose middle child renders empty
and is omitted without separator or arguments. -/
theorem claim_C5_witness :
    toSql (.and [Frag.eq [("a", GoVal.null)] false, Frag.expr "" [],
      Frag.expr "b = ?" [Sum.inl (GoVal.prim "2")]]) =
      .ok ("(a IS NULL AND b = ?)", [GoVal.prim "2"]) := by
  have h := (claim_C5_theorem.1
    [Frag.eq [("a", GoVal.null)] false, Frag.expr "" [],
      Frag.expr "b = ?" [Sum.inl (GoVal.prim "2")]]
    [("a IS NULL", []), ("", []), ("b = ?", [GoVal.prim "2"])]
    (.cons rfl (.cons rfl (.cons rfl .nil)))).1
  exact h.trans rfl

/-- C6: the ordering family (variant selected by `opposite`/`orEq`, operator
`<`, `<=`, `>`, `>=` accordingly) renders `"<key> <op> ?"` per entry
binding that single value, joined with `" AND "`, when every value is a
plain scalar; and it fails with an error whenever some entry's value is
null or list-shaped.  Values are post-`driver.Valuer`-unwrapping,
modelled as valuer-free. -/
theorem claim_C6_theorem (entries : List (String × GoVal)) (opposite orEq : Bool) :
    ((∀ p ∈ entries, isScalarV p.2 = true) →
      toSql (.lt entries opposite orEq) =
        .ok (joinSep " AND " (entries.map (fun p =>
            p.1 ++ " " ++ ((if opposite then ">" else "<") ++
              (if orEq then "=" else "")) ++ " ?")),
          entries.map Prod.snd)) ∧
    ((∀ p ∈ entries, isValuerV p.2 = false) →
      (∃ p ∈ entries, p.2 = GoVal.null ∨ isListType p.2 = true) →
      ∃ e, toSql (.lt entries opposite orEq) = .error e) := by
  constructor
  · intro hs
    rw [toSql, ltToSql_def, ltLoop_spec _ entries hs]
  · intro hv hbad
    obtain ⟨e, he⟩ := ltLoop_err _ entries hv hbad
    exact ⟨e, by rw [toSql, ltToSql_def, he]⟩

/-- C6 witness: a successful `>=` render and a failing null entry. -/
theorem claim_C6_witness :
    toSql (.lt [("a", GoVal.prim "1")] true true) =
        .ok ("a >= ?", [GoVal.prim "1"]) ∧
      ∃ e, toSql (.lt [("b", GoVal.null)] false false) = .error e := by
  constructor
  · have h := (claim_C6_theorem [("a", GoVal.prim "1")] true true).1
      (by
        intro p hp
        simp only [List.mem_cons, List.not_mem_nil, or_false] at hp
        subst hp
        rfl)
    exact h.trans rfl
  · exact (claim_C6_theorem [("b", GoVal.null)] false false).2
      (by
        intro p hp
        simp only [List.mem_cons, List.not_mem_nil, or_false] at hp
        subst hp
        rfl)
      ⟨("b", GoVal.null), by simp, Or.inl rfl⟩

/-- C7 (expander modelled from the spec): every placeholder mark whose
1-indexed position exceeds the supplied argument count is left unchanged,
appends no argument and raises no error, and rendering continues.  Out-of-
range marks are exactly the marks after the first `args.length` ones, so
the statement splits the template as `s1 ++ s2` at any point with the
argument positions already exhausted in `s1`: the whole suffix `s2` —
however many marks it contains, wherever they sit among other text —
passes through verbatim, contributing no argument and no error, and the
render succeeds iff the render of the `s1` part does. -/
theorem claim_C7_theorem (s1 s2 : String) (args : List (Sum GoVal Frag))
    (hle : args.length ≤ countQ s1) :
    toSql (.expr (s1 ++ s2) args) =
      Except.map (fun p => (p.1 ++ s2, p.2)) (toSql (.expr s1 args)) := by
  by_cases hq : hasSqlizer args
  · rw [toSql_expr_def, toSql_expr_def, if_pos hq, if_pos hq,
      exprGeneral, exprGeneral]
    have hdata : (s1 ++ s2).data = s1.data ++ s2.data := rfl
    rw [hdata, replaceLoop_append]
    have h2 : replaceLoop (exprStep (renderArgs args)) s2.data
        (0 + countQL s1.data) = .ok (s2, []) := by
      have hlen : (renderArgs args).length ≤ 0 + countQL s1.data := by
        rw [renderArgs_length]
        have hcq : countQL s1.data = countQ s1 := rfl
        omega
      exact replaceLoop_out_of_range (renderArgs args) s2.data _ hlen
    rw [h2]
    cases h1 : replaceLoop (exprStep (renderArgs args)) s1.data 0 with
    | error e => rfl
    | ok p =>
      obtain ⟨t1, a1⟩ := p
      simp [Except.map]
  · rw [toSql_expr_def, toSql_expr_def, if_neg hq, if_neg hq]
    rfl

/-- C7 witness: template `"??x"` with one (fragment) argument — the second
mark is out of range and is NOT the final character; it survives unchanged
between the spliced text and the trailing `x`, with no argument and no
error. -/
theorem claim_C7_witness :
    toSql (.expr "??x" [Sum.inr (Frag.expr "v" [])]) = .ok ("v?x", []) := by
  have h := claim_C7_theorem "?" "?x" [Sum.inr (Frag.expr "v" [])] (by decide)
  exact h.trans rfl

/-- C8 (counterexample): the fast path is observably different from the
general expansion path when scalar arguments outnumber marks: on template
`"?"` with two scalar arguments the fast path returns both arguments while
the general path consumes only the first and drops the surplus. -/
theorem claim_C8_counterexample :
    hasSqlizer [Sum.inl (GoVal.prim "1"), Sum.inl (GoVal.prim "2")] = false ∧
      exprFastPath "?" [Sum.inl (GoVal.prim "1"), Sum.inl (GoVal.prim "2")] =
        .ok ("?", [GoVal.prim "1", GoVal.prim "2"]) ∧
      exprGeneralPath "?" [Sum.inl (GoVal.prim "1"), Sum.inl (GoVal.prim "2")] =
        .ok ("?", [GoVal.prim "1"]) ∧
      ([GoVal.prim "1", GoVal.prim "2"] : List GoVal).length ≠
        ([GoVal.prim "1"] : List GoVal).length :=
  ⟨rfl, rfl, rfl, by decide⟩

/-- C8 (amended): for every expr whose arguments contain no Fragment AND
whose argument count does not exceed the template's mark count, the fast
path returns exactly the triple the general expansion path would return;
with surplus arguments the two paths differ as the counterexample shows. -/
theorem claim_C8_amended (sql : String) (args : List (Sum GoVal Frag))
    (hq : hasSqlizer args = false) (hle : args.length ≤ countQ sql) :
    exprFastPath sql args = exprGeneralPath sql args := by
  obtain ⟨hlen, hra⟩ := argVals_of_no_sqlizer args hq
  rw [exprFastPath, exprGeneralPath, exprGeneral, hra, replaceLoop_scalars]
  rw [List.drop_zero, List.take_of_length_le (by rw [hlen]; exact hle)]

/-- C8 witness: the amended equivalence at a concrete input with more marks
than arguments. -/
theorem claim_C8_witness :
    exprFastPath "? ?" [Sum.inl (GoVal.prim "1")] =
      exprGeneralPath "? ?" [Sum.inl (GoVal.prim "1")] :=
  claim_C8_amended "? ?" [Sum.inl (GoVal.prim "1")] rfl (by decide)

/-- C9: JSON / JSONB render text that is exactly one placeholder mark
immediately followed by the cast suffix `::json` / `::jsonb`, bind the
single serialized string as the only argument, and fail exactly when the
(external, here pre-supplied) JSON serialization of the value fails. -/
theorem claim_C9_theorem (jb : Bool) :
    (∀ v, toSql (.json jb (.ok v)) =
        .ok ((if jb then "?::jsonb" else "?::json"), [GoVal.prim v]) ∧
      countQ (if jb then "?::jsonb" else "?::json") = 1) ∧
    (∀ e, ∃ msg, toSql (.json jb (.error e)) = .error msg) := by
  cases jb
  · exact ⟨fun v => ⟨rfl, rfl⟩, fun e => ⟨_, rfl⟩⟩
  · exact ⟨fun v => ⟨rfl, rfl⟩, fun e => ⟨_, rfl⟩⟩

/-- C10: And/Or on an empty child list, or on children that all render to
empty text, return empty text (no parentheses), an empty argument list and
no error; and a child rendering to empty text is dropped entirely — its
arguments are discarded, not concatenated. -/
theorem claim_C10_theorem :
    (toSql (.and []) = .ok ("", []) ∧ toSql (.or []) = .ok ("", [])) ∧
    (∀ cs : List Frag, (∀ g ∈ cs, ∃ a, toSql g = .ok ("", a)) →
      toSql (.and cs) = .ok ("", []) ∧ toSql (.or cs) = .ok ("", [])) ∧
    (∀ (c : Frag) (cs : List Frag) (a : List GoVal), toSql c = .ok ("", a) →
      toSql (.and (c :: cs)) = toSql (.and cs) ∧
      toSql (.or (c :: cs)) = toSql (.or cs)) := by
  refine ⟨⟨rfl, rfl⟩, ?_, ?_⟩
  · intro cs h
    have hp := conjParts_all_empty cs h
    exact ⟨by rw [toSql_and_def, hp]; rfl, by rw [toSql_or_def, hp]; rfl⟩
  · intro c cs a hc
    have hp := conjParts_skip c cs a hc
    exact ⟨by rw [toSql_and_def, toSql_and_def, hp],
      by rw [toSql_or_def, toSql_or_def, hp]⟩

/-- C10 witness: a single child with empty text and a NON-empty argument
list — the conjunction renders to empty text and empty arguments. -/
theorem claim_C10_witness :
    toSql (.and [Frag.expr "" [Sum.inl (GoVal.prim "5")]]) = .ok ("", []) := by
  have h := (claim_C10_theorem.2.2 (Frag.expr "" [Sum.inl (GoVal.prim "5")])
    [] [GoVal.prim "5"] rfl).1
  rw [h]
  exact claim_C10_theorem.1.1

end Sqrl
